import Mathlib

/-!
Verification of the hash-server repository: a shallow embedding in Lean 4 of
the `hasher` package (synchronous digest function and the asynchronous
coordinator in its two synchronization variants) and of the `server`
package's path-parameter parsing, together with theorems settling the
specification claims against this embedding.

Machine integers are modelled as `Nat`/`Int` with explicit reduction
modulo `2 ^ 64` where overflow matters; Go's `float64` statistics average
is modelled as an exact rational.
-/

namespace HashServer

/-! ## 64-bit word arithmetic (Go `uint64` operations used by SHA-512) -/

/-- `2 ^ 64`, the modulus for 64-bit words. -/
def w64 : Nat := 18446744073709551616

/-- Addition modulo `2 ^ 64` (Go `+` on `uint64`). -/
def add64 (a b : Nat) : Nat := (a + b) % w64

/-- Bitwise complement on 64-bit words (Go `^x` on `uint64`). -/
def not64 (a : Nat) : Nat := Nat.xor a (w64 - 1)

/-- Right rotation of a 64-bit word by `n` bits (Go `bits.RotateLeft64(x, -n)`). -/
def rotr64 (a n : Nat) : Nat := ((a >>> n) ||| (a <<< (64 - n))) % w64

/-! ## SHA-512 (Go `crypto/sha512`), operating on lists of bytes (`Nat < 256`) -/

/-- SHA-512 choice function. -/
def shaCh (x y z : Nat) : Nat := Nat.xor (x &&& y) ((not64 x) &&& z)

/-- SHA-512 majority function. -/
def shaMaj (x y z : Nat) : Nat := Nat.xor (Nat.xor (x &&& y) (x &&& z)) (y &&& z)

/-- SHA-512 big sigma 0. -/
def bsig0 (x : Nat) : Nat := Nat.xor (Nat.xor (rotr64 x 28) (rotr64 x 34)) (rotr64 x 39)

/-- SHA-512 big sigma 1. -/
def bsig1 (x : Nat) : Nat := Nat.xor (Nat.xor (rotr64 x 14) (rotr64 x 18)) (rotr64 x 41)

/-- SHA-512 small sigma 0. -/
def ssig0 (x : Nat) : Nat := Nat.xor (Nat.xor (rotr64 x 1) (rotr64 x 8)) (x >>> 7)

/-- SHA-512 small sigma 1. -/
def ssig1 (x : Nat) : Nat := Nat.xor (Nat.xor (rotr64 x 19) (rotr64 x 61)) (x >>> 6)

/-- The 80 SHA-512 round constants. -/
def shaK : List Nat := [
  4794697086780616226, 8158064640168781261, 13096744586834688815,
  16840607885511220156, 4131703408338449720, 6480981068601479193,
  10538285296894168987, 12329834152419229976, 15566598209576043074,
  1334009975649890238, 2608012711638119052, 6128411473006802146,
  8268148722764581231, 9286055187155687089, 11230858885718282805,
  13951009754708518548, 16472876342353939154, 17275323862435702243,
  1135362057144423861, 2597628984639134821, 3308224258029322869,
  5365058923640841347, 6679025012923562964, 8573033837759648693,
  10970295158949994411, 12119686244451234320, 12683024718118986047,
  13788192230050041572, 14330467153632333762, 15395433587784984357,
  489312712824947311, 1452737877330783856, 2861767655752347644,
  3322285676063803686, 5560940570517711597, 5996557281743188959,
  7280758554555802590, 8532644243296465576, 9350256976987008742,
  10552545826968843579, 11727347734174303076, 12113106623233404929,
  14000437183269869457, 14369950271660146224, 15101387698204529176,
  15463397548674623760, 17586052441742319658, 1182934255886127544,
  1847814050463011016, 2177327727835720531, 2830643537854262169,
  3796741975233480872, 4115178125766777443, 5681478168544905931,
  6601373596472566643, 7507060721942968483, 8399075790359081724,
  8693463985226723168, 9568029438360202098, 10144078919501101548,
  10430055236837252648, 11840083180663258601, 13761210420658862357,
  14299343276471374635, 14566680578165727644, 15097957966210449927,
  16922976911328602910, 17689382322260857208, 500013540394364858,
  748580250866718886, 1242879168328830382, 1977374033974150939,
  2944078676154940804, 3659926193048069267, 4368137639120453308,
  4836135668995329356, 5532061633213252278, 6448918945643986474,
  6902733635092675308, 7801388544844847127]

/-- The SHA-512 initial hash value (eight 64-bit words). -/
def shaH0 : List Nat := [
  7640891576956012808, 13503953896175478587,
  4354685564936845355, 11912009170470909681,
  5840696475078001361, 11170449401992604703,
  2270897969802886507, 6620516959819538809]

/-- Group a byte list into big-endian 64-bit words (8 bytes per word). -/
def bytesToWords : List Nat → List Nat
  | b1 :: b2 :: b3 :: b4 :: b5 :: b6 :: b7 :: b8 :: rest =>
      (((((((b1 <<< 8 ||| b2) <<< 8 ||| b3) <<< 8 ||| b4) <<< 8 ||| b5) <<< 8
          ||| b6) <<< 8 ||| b7) <<< 8 ||| b8) :: bytesToWords rest
  | _ => []

/-- Serialize one 64-bit word into 8 big-endian bytes. -/
def wordToBytes (w : Nat) : List Nat :=
  [(w >>> 56) &&& 255, (w >>> 48) &&& 255, (w >>> 40) &&& 255, (w >>> 32) &&& 255,
   (w >>> 24) &&& 255, (w >>> 16) &&& 255, (w >>> 8) &&& 255, w &&& 255]

/-- Extend the 16-word message schedule by `n` further words. -/
def scheduleExtend : Nat → List Nat → List Nat
  | 0, ws => ws
  | n + 1, ws =>
      let t := ws.length
      let w := add64 (add64 (ssig1 (ws.getD (t - 2) 0)) (ws.getD (t - 7) 0))
                     (add64 (ssig0 (ws.getD (t - 15) 0)) (ws.getD (t - 16) 0))
      scheduleExtend n (ws ++ [w])

/-- The eight 64-bit working variables of the SHA-512 compression function. -/
structure ShaState where
  a : Nat
  b : Nat
  c : Nat
  d : Nat
  e : Nat
  f : Nat
  g : Nat
  h : Nat

/-- One round of the SHA-512 compression function with round constant `k`
and schedule word `w`. -/
def shaRound (s : ShaState) (kw : Nat × Nat) : ShaState :=
  let t1 := add64 s.h (add64 (bsig1 s.e) (add64 (shaCh s.e s.f s.g) (add64 kw.1 kw.2)))
  let t2 := add64 (bsig0 s.a) (shaMaj s.a s.b s.c)
  ⟨add64 t1 t2, s.a, s.b, s.c, add64 s.d t1, s.e, s.f, s.g⟩

/-- Compress one 128-byte block into the running hash value (eight words). -/
def processBlock (hs : List Nat) (block : List Nat) : List Nat :=
  let ws := scheduleExtend 64 (bytesToWords block)
  let s0 : ShaState := ⟨hs.getD 0 0, hs.getD 1 0, hs.getD 2 0, hs.getD 3 0,
                        hs.getD 4 0, hs.getD 5 0, hs.getD 6 0, hs.getD 7 0⟩
  let s := (shaK.zip ws).foldl shaRound s0
  [add64 (hs.getD 0 0) s.a, add64 (hs.getD 1 0) s.b, add64 (hs.getD 2 0) s.c,
   add64 (hs.getD 3 0) s.d, add64 (hs.getD 4 0) s.e, add64 (hs.getD 5 0) s.f,
   add64 (hs.getD 6 0) s.g, add64 (hs.getD 7 0) s.h]

/-- SHA-512 padding: append `0x80`, zero bytes up to 112 mod 128, and the
message bit length as a 16-byte big-endian integer. -/
def shaPad (msg : List Nat) : List Nat :=
  let len := msg.length
  let zeros := (240 - ((len + 1) % 128)) % 128
  let bits := 8 * len
  msg ++ 0x80 :: List.replicate zeros 0 ++
    (List.range 16).map (fun i => (bits >>> (8 * (15 - i))) &&& 255)

/-- Split a byte list into consecutive 128-byte blocks, with `fuel` bounding
the recursion depth (called with the list length). -/
def splitBlocks : Nat → List Nat → List (List Nat)
  | 0, _ => []
  | fuel + 1, bs =>
      if bs.isEmpty then [] else bs.take 128 :: splitBlocks fuel (bs.drop 128)

/-- SHA-512 of a byte list: the 64-byte digest. -/
def sha512 (msg : List Nat) : List Nat :=
  let padded := shaPad msg
  let final := (splitBlocks padded.length padded).foldl processBlock shaH0
  (final.map wordToBytes).flatten

/-! ## Standard base64 encoding with padding (Go `encoding/base64.StdEncoding`) -/

/-- The standard base64 alphabet. -/
def base64Table : List Char :=
  "ABCDEFGHIJKLMNOPQRSTUVWXYZabcdefghijklmnopqrstuvwxyz0123456789+/".data

/-- The base64 character for a 6-bit value. -/
def b64char (n : Nat) : Char := base64Table.getD n 'A'

/-- Standard base64 encoding of a byte list, with `=` padding. -/
def base64Encode : List Nat → List Char
  | [] => []
  | [b1] => [b64char (b1 >>> 2), b64char ((b1 &&& 3) <<< 4), '=', '=']
  | [b1, b2] => [b64char (b1 >>> 2), b64char (((b1 &&& 3) <<< 4) ||| (b2 >>> 4)),
                 b64char ((b2 &&& 15) <<< 2), '=']
  | b1 :: b2 :: b3 :: rest =>
      b64char (b1 >>> 2) :: b64char (((b1 &&& 3) <<< 4) ||| (b2 >>> 4)) ::
      b64char (((b2 &&& 15) <<< 2) ||| (b3 >>> 6)) :: b64char (b3 &&& 63) ::
      base64Encode rest

/-! ## `hasher.Compute`: SHA-512 of the payload's UTF-8 bytes, base64-encoded -/

/-- UTF-8 encoding of one character (Go strings are UTF-8; `[]byte(in)`
yields these bytes). -/
def utf8Bytes (ch : Char) : List Nat :=
  let n := ch.toNat
  if n < 0x80 then [n]
  else if n < 0x800 then [0xC0 ||| (n >>> 6), 0x80 ||| (n &&& 0x3F)]
  else if n < 0x10000 then
    [0xE0 ||| (n >>> 12), 0x80 ||| ((n >>> 6) &&& 0x3F), 0x80 ||| (n &&& 0x3F)]
  else
    [0xF0 ||| (n >>> 18), 0x80 ||| ((n >>> 12) &&& 0x3F),
     0x80 ||| ((n >>> 6) &&& 0x3F), 0x80 ||| (n &&& 0x3F)]

/-- The raw bytes of a Go string (UTF-8). -/
def strBytes (s : String) : List Nat := (s.data.map utf8Bytes).flatten

/-- `hasher.Compute`: sha512 of the input's bytes, standard base64 encoded. -/
def Compute (s : String) : String :=
  String.mk (base64Encode (sha512 (strBytes s)))

/-! ## `server.parsePathParamInt` (path and prefix stripping, `strconv.ParseInt`) -/

/-- Go `strings.TrimPrefix(s, p)` on rune lists: drop `p` when it is a
prefix of `s`, otherwise return `s` unchanged. -/
def trimPrefixL (s p : List Char) : List Char :=
  if p.isPrefixOf s then s.drop p.length else s

/-- Whether a character is an ASCII decimal digit (the only digits
`strconv.ParseInt` accepts in base 10). -/
def isDigitGo (c : Char) : Bool := decide ('0' ≤ c) && decide (c ≤ '9')

/-- The numeric value of a decimal digit list (most significant first). -/
def digitsVal (ds : List Char) : Nat :=
  ds.foldl (fun acc c => 10 * acc + (c.toNat - 48)) 0

/-- Go `strconv.ParseInt(s, 10, 64)`, modelled as `Option Int`: `some n` on
success (`err == nil`), `none` on a syntax or range error.  An optional
leading sign is followed by one or more decimal digits; the value must fit
in a signed 64-bit integer. -/
def parseIntGo (s : List Char) : Option Int :=
  match s with
  | [] => none
  | c :: rest =>
      let neg : Bool := c = '-'
      let ds : List Char := if c = '-' ∨ c = '+' then rest else s
      if ds = [] then none
      else if ds.all isDigitGo then
        let n : Nat := digitsVal ds
        if neg then
          if n ≤ 2 ^ 63 then some (-(n : Int)) else none
        else
          if n < 2 ^ 63 then some (n : Int) else none
      else none

/-- `server.parsePathParamInt(path, prefix)`: strip the prefix from the
path (when present) and parse the remainder as a decimal int64. -/
def parsePathParamInt (path pfx : String) : Option Int :=
  parseIntGo (trimPrefixL path.data pfx.data)

/-- The decimal digit list of a natural number, with explicit recursion
fuel (called with `n + 1`, which always suffices). -/
def natToDigits : Nat → Nat → List Char
  | 0, _ => []
  | fuel + 1, n =>
      if n < 10 then [Char.ofNat (48 + n)]
      else natToDigits fuel (n / 10) ++ [Char.ofNat (48 + n % 10)]

/-- The decimal digit list of a natural number. -/
def natDecimal (n : Nat) : List Char := natToDigits (n + 1) n

/-- Go `strconv.FormatInt(z, 10)`: the decimal string of an int64, with a
leading minus sign for negative values. -/
def intDecimal (z : Int) : List Char :=
  if z < 0 then '-' :: natDecimal z.natAbs else natDecimal z.toNat

/-! ## The `Stats` record and its update (source file `stats.go`)

Go's `Total` is a `uint64` (stored modulo `2 ^ 64`), `totalTime` an
`int64` count of nanoseconds (stored wrapped into the signed 64-bit
range), and `Avg` a `float64`, modelled here as an exact rational. -/

/-- Wrap an integer into the signed 64-bit range (Go `int64` arithmetic). -/
def wrapI64 (z : Int) : Int :=
  (z + 9223372036854775808) % 18446744073709551616 - 9223372036854775808

/-- `hasher.Stats`: total count, average milliseconds, cumulative time. -/
structure Stats where
  Total : Nat
  Avg : ℚ
  totalTime : Int
  deriving DecidableEq, Repr

/-- The zero value of `Stats` (Go's zero-initialized struct). -/
def statsInit : Stats := ⟨0, 0, 0⟩

/-- `Stats.update`: increment the total, add the elapsed time (in
nanoseconds), and recompute the average in milliseconds. -/
def Stats.update (s : Stats) (elapsed : Nat) : Stats :=
  let total := (s.Total + 1) % 18446744073709551616
  let totalTime := wrapI64 (s.totalTime + elapsed)
  ⟨total, (totalTime : ℚ) / (total : ℚ) / 1000000, totalTime⟩

/-- The stats state reached after a given sequence of completed-job
durations (nanoseconds) has been applied to a fresh `Stats`. -/
def statsOfDurations (ds : List Nat) : Stats := ds.foldl Stats.update statsInit

/-! ## Association-list model of Go's `map[int64]string` -/

/-- Lookup in an association list (Go `m[k]` with its `ok` flag). -/
def alLookup {α : Type} : List (Int × α) → Int → Option α
  | [], _ => none
  | (k, v) :: rest, id => if k = id then some v else alLookup rest id

/-- Remove a key from an association list (Go `delete(m, k)`). -/
def alErase {α : Type} : List (Int × α) → Int → List (Int × α)
  | [], _ => []
  | (k, v) :: rest, id => if k = id then alErase rest id else (k, v) :: alErase rest id

/-- Map assignment `m[k] = v` (replaces any existing entry for `k`). -/
def alInsert {α : Type} (m : List (Int × α)) (k : Int) (v : α) : List (Int × α) :=
  alErase m k ++ [(k, v)]

/-! ## `AsyncHasherMutex` (hasher_mutex.go), sequential-atomic semantics

Each operation below is one critical section (or one atomic instruction)
of the Go code; interleaved executions are modelled by the trace machine
further down, whose events apply these atomic operations one at a time. -/

/-- The shared state of `AsyncHasherMutex`: the id counter, the map of
completed hashes, and the stats record (the mutexes themselves are
represented by the atomicity of each operation). -/
structure AsyncHasherMutex where
  asyncId : Int
  hashes : List (Int × String)
  stats : Stats
  deriving DecidableEq, Repr

/-- `NewHasherMutex()`: zero counter, empty map, zero stats. -/
def NewHasherMutex : AsyncHasherMutex := ⟨0, [], statsInit⟩

/-- The synchronous part of `AsyncHasherMutex.Compute`:
`id := atomic.AddInt64(&h.asyncId, 1)` — returns the incremented counter
as the new handle (int64 wraparound made explicit). -/
def AsyncHasherMutex.computeSync (h : AsyncHasherMutex) : Int × AsyncHasherMutex :=
  let id := wrapI64 (h.asyncId + 1)
  (id, { h with asyncId := id })

/-- The stats critical section of the background goroutine:
`h.stats.update(time.Since(start))` under `statsMutex`. -/
def AsyncHasherMutex.statsStep (h : AsyncHasherMutex) (elapsed : Nat) : AsyncHasherMutex :=
  { h with stats := h.stats.update elapsed }

/-- The hash-map critical section of the background goroutine:
`h.hashes[id] = hash` under `hashMutex`, where `hash = Compute(password)`. -/
def AsyncHasherMutex.putStep (h : AsyncHasherMutex) (id : Int) (password : String) :
    AsyncHasherMutex :=
  { h with hashes := alInsert h.hashes id (Compute password) }

/-- `AsyncHasherMutex.GetAndRemoveHash`: under `hashMutex`, look the id up;
if absent return the not-found error, otherwise delete the entry and
return the hash.  `none` models the Go `errors.New("id not found")` path. -/
def AsyncHasherMutex.GetAndRemoveHash (h : AsyncHasherMutex) (id : Int) :
    Option String × AsyncHasherMutex :=
  match alLookup h.hashes id with
  | none => (none, h)
  | some v => (some v, { h with hashes := alErase h.hashes id })

/-- `AsyncHasherMutex.Stats()`: return the stats record (read whole,
under `statsMutex`). -/
def AsyncHasherMutex.statsRead (h : AsyncHasherMutex) : Stats := h.stats

/-! ## Trace machine for interleaved executions of the mutex variant

One event per atomic action.  A submitted job passes through two phases:
`sleeping` (before its stats critical section; covers the simulated
latency and digest computation) and `publishing` (between the stats
update and the map insert).  The `sync.WaitGroup` counter is positive
exactly while a job is in either list, so `Drain` (`wg.Wait`) can return
only when both lists are empty. -/

/-- Events of the trace machine: each is one atomic action of the Go code. -/
inductive Ev where
  /-- The synchronous part of `Compute(password)`: allocate the handle,
  `wg.Add(1)`, launch the goroutine. -/
  | submit (password : String)
  /-- Job `id`'s goroutine finishes its digest and applies its stats update
  (taking `elapsed` nanoseconds of measured work). -/
  | statsDone (id : Int) (elapsed : Nat)
  /-- Job `id`'s goroutine inserts its hash into the map and calls `wg.Done()`. -/
  | putDone (id : Int)
  /-- A caller invokes `GetAndRemoveHash(id)`. -/
  | getAndRemove (id : Int)
  /-- A caller invokes `Stats()`. -/
  | readStats
  /-- `Drain()` (`wg.Wait()`) returns: only enabled when no job is outstanding. -/
  | drainReturn
  deriving DecidableEq, Repr

/-- Observations returned to callers by each event. -/
inductive Obs where
  | id (handle : Int)
  | retrieved (r : Option String)
  | stats (s : Stats)
  | unit
  deriving DecidableEq, Repr

/-- A trace-machine state: the shared mutex-hasher state plus the two
phases of outstanding background jobs (each entry carries the job's
handle and submitted payload). -/
structure MState where
  hasher : AsyncHasherMutex
  sleeping : List (Int × String)
  publishing : List (Int × String)
  deriving DecidableEq, Repr

/-- The initial trace-machine state of a fresh `AsyncHasherMutex`. -/
def initM : MState := ⟨NewHasherMutex, [], []⟩

/-- One atomic step of the mutex variant.  `none` means the event is not
enabled in this state (e.g. a completion step for a job that is not in the
right phase, or `Drain` returning while work is outstanding). -/
def stepM (s : MState) : Ev → Option (MState × Obs)
  | .submit p =>
      let (id, h') := s.hasher.computeSync
      some (⟨h', s.sleeping ++ [(id, p)], s.publishing⟩, .id id)
  | .statsDone id elapsed =>
      match alLookup s.sleeping id with
      | none => none
      | some p =>
          some (⟨s.hasher.statsStep elapsed, alErase s.sleeping id,
                 s.publishing ++ [(id, p)]⟩, .unit)
  | .putDone id =>
      match alLookup s.publishing id with
      | none => none
      | some p =>
          some (⟨s.hasher.putStep id p, s.sleeping, alErase s.publishing id⟩, .unit)
  | .getAndRemove id =>
      let (r, h') := s.hasher.GetAndRemoveHash id
      some (⟨h', s.sleeping, s.publishing⟩, .retrieved r)
  | .readStats => some (s, .stats s.hasher.statsRead)
  | .drainReturn =>
      if s.sleeping = [] ∧ s.publishing = [] then some (s, .unit) else none

/-- Run the mutex trace machine over a list of events, collecting the
observations; `none` when some event is not enabled. -/
def runM (s : MState) : List Ev → Option (MState × List Obs)
  | [] => some (s, [])
  | e :: es =>
      match stepM s e with
      | none => none
      | some (s', o) =>
          match runM s' es with
          | none => none
          | some (s'', os) => some (s'', o :: os)

/-! ## `AsyncHasherChannel` (hasher.go), single-owner event loop

The event loop owns a local map and a local stats value; every access is
a message.  A background goroutine sends its stats update and its hash
pair as two separate messages; `GetAndRemoveHash` sends a request and
waits for the response; `Stats` receives the current value. -/

/-- The state owned by `AsyncHasherChannel.eventLoop`: the local `hashes`
map and `stats` value. -/
structure LoopState where
  hashes : List (Int × String)
  stats : Stats
  deriving DecidableEq, Repr

/-- The messages the event loop selects over (one per `case` of the
`select` statement, shutdown aside). -/
inductive LoopMsg where
  /-- `hashPutChan`: a completed hash to be cached (`hashPair`). -/
  | put (id : Int) (hash : String)
  /-- `hashRequestChan`: a retrieval request (`hashRequest`). -/
  | request (id : Int)
  /-- `statsChan`: a caller receives the current stats. -/
  | statsSend
  /-- `statUpdateChan`: a completed operation's elapsed time. -/
  | statUpdate (elapsed : Nat)
  deriving DecidableEq, Repr

/-- Processing of one message by `eventLoop`, returning the new loop
state and the observation sent back to the requester (if any). -/
def eventLoopStep (ls : LoopState) : LoopMsg → LoopState × Obs
  | .put id hash => (⟨alInsert ls.hashes id hash, ls.stats⟩, .unit)
  | .request id =>
      match alLookup ls.hashes id with
      | none => (ls, .retrieved none)
      | some v => (⟨alErase ls.hashes id, ls.stats⟩, .retrieved (some v))
  | .statsSend => (ls, .stats ls.stats)
  | .statUpdate elapsed => (⟨ls.hashes, ls.stats.update elapsed⟩, .unit)

/-- The channel-variant machine state, faithful to the concurrency
structure of `hasher.go`: the atomic id counter; worker goroutines in two
phases (`sleeping`: submitted and still before their `statUpdateChan`
send, covering the simulated latency and the digest computation;
`sentStats`: between the two sends); the FIFO contents of the two
buffered channels; the event-loop-owned state; and whether the event
loop is still running (it exits when it takes the `shutdown` case).  The
channel capacities (100 in the source) are idealized as unbounded, which
only removes worker blocking on a full buffer.  The `sync.WaitGroup`
counter is positive exactly while a worker is in either phase or the
loop is alive. -/
structure CFState where
  asyncId : Int
  sleeping : List (Int × String)
  sentStats : List (Int × String)
  statsQueue : List Nat
  putQueue : List (Int × String)
  loop : LoopState
  loopAlive : Bool
  deriving DecidableEq, Repr

/-- Events of the channel-variant machine.  A worker's sends and the
event loop's processing of the corresponding messages are separate
atomic actions, so the loop may take them in any order relative to other
requests — Go's `select` picks any ready case, and both publication
channels are buffered. -/
inductive CEv where
  /-- The synchronous part of `Compute`: allocate the handle, `wg.Add(1)`,
  launch the goroutine. -/
  | submit (password : String)
  /-- Worker `id` finishes its digest (taking `elapsed` nanoseconds) and
  sends the duration on the buffered `statUpdateChan`. -/
  | sendStats (id : Int) (elapsed : Nat)
  /-- Worker `id` sends its `hashPair` on the buffered `hashPutChan` and
  calls `wg.Done()`. -/
  | sendPut (id : Int)
  /-- The event loop takes the `statUpdateChan` case (front of the FIFO). -/
  | procStats
  /-- The event loop takes the `hashPutChan` case (front of the FIFO). -/
  | procPut
  /-- A caller's `GetAndRemoveHash(id)`: the loop takes the request and
  the caller receives the response. -/
  | getAndRemove (id : Int)
  /-- A caller's `Stats()`: the loop sends the current stats value. -/
  | readStats
  /-- The loop takes the `shutdown` case sent by `Drain` and exits
  (`wg.Done()` for the loop's own registration). -/
  | shutdownProc
  /-- `Drain`'s `wg.Wait()` returns: the loop has exited and no worker is
  outstanding; buffered messages may remain unprocessed forever. -/
  | drainReturn
  deriving DecidableEq, Repr

/-- The initial state of a fresh `AsyncHasherChannel`: zero counter, no
workers, empty channel buffers, empty loop-owned map, zero stats, event
loop running. -/
def initCF : CFState := ⟨0, [], [], [], [], ⟨[], statsInit⟩, true⟩

/-- One atomic action of the channel variant.  `none` means the action is
not enabled (a phase guard fails, a queue to be received from is empty,
or the event loop has exited and can no longer serve requests). -/
def stepCF (c : CFState) : CEv → Option (CFState × Obs)
  | .submit p =>
      let id := wrapI64 (c.asyncId + 1)
      some ({ c with asyncId := id, sleeping := c.sleeping ++ [(id, p)] }, .id id)
  | .sendStats id elapsed =>
      match alLookup c.sleeping id with
      | none => none
      | some p =>
          some ({ c with sleeping := alErase c.sleeping id,
                         sentStats := c.sentStats ++ [(id, p)],
                         statsQueue := c.statsQueue ++ [elapsed] }, .unit)
  | .sendPut id =>
      match alLookup c.sentStats id with
      | none => none
      | some p =>
          some ({ c with sentStats := alErase c.sentStats id,
                         putQueue := c.putQueue ++ [(id, Compute p)] }, .unit)
  | .procStats =>
      if c.loopAlive then
        match c.statsQueue with
        | [] => none
        | d :: rest =>
            some ({ c with loop := (eventLoopStep c.loop (.statUpdate d)).1,
                           statsQueue := rest }, .unit)
      else none
  | .procPut =>
      if c.loopAlive then
        match c.putQueue with
        | [] => none
        | (id, hash) :: rest =>
            some ({ c with loop := (eventLoopStep c.loop (.put id hash)).1,
                           putQueue := rest }, .unit)
      else none
  | .getAndRemove id =>
      if c.loopAlive then
        some ({ c with loop := (eventLoopStep c.loop (.request id)).1 },
              (eventLoopStep c.loop (.request id)).2)
      else none
  | .readStats =>
      if c.loopAlive then some (c, .stats c.loop.stats) else none
  | .shutdownProc =>
      if c.loopAlive then some ({ c with loopAlive := false }, .unit) else none
  | .drainReturn =>
      if c.loopAlive = false ∧ c.sleeping = [] ∧ c.sentStats = [] then
        some (c, .unit)
      else none

/-- Run the channel machine over a list of events, collecting the
observations; `none` when some event is not enabled. -/
def runCF (c : CFState) : List CEv → Option (CFState × List Obs)
  | [] => some (c, [])
  | e :: es =>
      match stepCF c e with
      | none => none
      | some (c1, o) =>
          match runCF c1 es with
          | none => none
          | some (c2, os) => some (c2, o :: os)

/-- Whether an observation is an API result (a handle, a retrieval
outcome or a stats value), as opposed to the `unit` of an internal step. -/
def isApiObs : Obs → Bool
  | .unit => false
  | _ => true

/-- The API results of an observation sequence. -/
def apiObs (os : List Obs) : List Obs := os.filter isApiObs

/-- Whether a stats observation reports a zero completion count. -/
def statsZero : Obs → Bool
  | .stats st => st.Total == 0
  | _ => false

/-- Whether a successful retrieval is somewhere later followed by a
stats read reporting a zero completion count. -/
def obsSuccessThenZero : List Obs → Bool
  | [] => false
  | Obs.retrieved (some _) :: rest => rest.any statsZero || obsSuccessThenZero rest
  | _ :: rest => obsSuccessThenZero rest

/-- All lists obtained by inserting `x` at each position of a list. -/
def insertEverywhere {α : Type} (x : α) : List α → List (List α)
  | [] => [[x]]
  | y :: ys => (x :: y :: ys) :: (insertEverywhere x ys).map (fun l => y :: l)

/-- All permutations of a list (every interleaving of a fixed workload). -/
def perms {α : Type} : List α → List (List α)
  | [] => [[]]
  | x :: xs => (perms xs).flatMap (insertEverywhere x)

/-- Translation of one mutex-machine event into the channel-machine
events that realize it: the event loop processes each publication
message immediately after it is sent (one of the schedules Go's `select`
admits). -/
def trEv : Ev → List CEv
  | .submit p => [.submit p]
  | .statsDone id elapsed => [.sendStats id elapsed, .procStats]
  | .putDone id => [.sendPut id, .procPut]
  | .getAndRemove id => [.getAndRemove id]
  | .readStats => [.readStats]
  | .drainReturn => [.shutdownProc, .drainReturn]

/-- Translation of a mutex-machine event sequence. -/
def trEvs (evs : List Ev) : List CEv := evs.flatMap trEv

/-- The simulation relation for `trEvs` schedules: channel buffers
drained, event loop alive, and the loop-owned map/stats, the counter and
the worker phases agreeing with the mutex-machine state. -/
def relCF (s : MState) (c : CFState) : Prop :=
  c.asyncId = s.hasher.asyncId ∧ c.sleeping = s.sleeping ∧
  c.sentStats = s.publishing ∧ c.statsQueue = [] ∧ c.putQueue = [] ∧
  c.loop.hashes = s.hasher.hashes ∧ c.loop.stats = s.hasher.stats ∧
  c.loopAlive = true

/-- The handles returned by `n` successive synchronous `Compute` calls on
the mutex hasher (the ID-allocator behaviour in isolation). -/
def submitIds : Nat → AsyncHasherMutex → List Int
  | 0, _ => []
  | n + 1, h =>
      let (id, h') := h.computeSync
      id :: submitIds n h'

/-! ## Association-list lemmas -/

theorem alLookup_append {α : Type} (l1 l2 : List (Int × α)) (id : Int) :
    alLookup (l1 ++ l2) id =
      match alLookup l1 id with
      | some v => some v
      | none => alLookup l2 id := by
  induction l1 with
  | nil => rfl
  | cons kv rest ih =>
      obtain ⟨k, v⟩ := kv
      by_cases hk : k = id <;> simp [alLookup, hk, ih]

theorem alLookup_alErase_self {α : Type} (m : List (Int × α)) (k : Int) :
    alLookup (alErase m k) k = none := by
  induction m with
  | nil => rfl
  | cons kv rest ih =>
      obtain ⟨k', v⟩ := kv
      by_cases hk : k' = k <;> simp [alErase, alLookup, hk, ih]

theorem alLookup_alErase_ne {α : Type} (m : List (Int × α)) (k id : Int) (h : k ≠ id) :
    alLookup (alErase m k) id = alLookup m id := by
  induction m with
  | nil => rfl
  | cons kv rest ih =>
      obtain ⟨k', v⟩ := kv
      by_cases hk : k' = k
      · subst hk
        have : ¬ k' = id := h
        simp [alErase, alLookup, this, ih]
      · by_cases hid : k' = id <;> simp [alErase, alLookup, hk, hid, ih, Ne.symm h]

theorem alLookup_alInsert_self {α : Type} (m : List (Int × α)) (k : Int) (v : α) :
    alLookup (alInsert m k v) k = some v := by
  simp [alInsert, alLookup_append, alLookup_alErase_self, alLookup]

theorem alLookup_alInsert_ne {α : Type} (m : List (Int × α)) (k id : Int) (v : α)
    (h : k ≠ id) : alLookup (alInsert m k v) id = alLookup m id := by
  rw [alInsert, alLookup_append, alLookup_alErase_ne m k id h]
  cases hm : alLookup m id <;> simp [alLookup, h]

theorem alLookup_alErase_none {α : Type} (m : List (Int × α)) (k id : Int)
    (h : alLookup m id = none) : alLookup (alErase m k) id = none := by
  by_cases hk : k = id
  · subst hk; exact alLookup_alErase_self m k
  · rw [alLookup_alErase_ne m k id hk]; exact h

theorem alLookup_alErase_some {α : Type} (m : List (Int × α)) (k id : Int) (v : α)
    (h : alLookup (alErase m k) id = some v) : alLookup m id = some v := by
  by_cases hk : k = id
  · subst hk; rw [alLookup_alErase_self] at h; exact absurd h (by simp)
  · rwa [alLookup_alErase_ne m k id hk] at h

theorem alLookup_alInsert_isSome {α : Type} (m : List (Int × α)) (k id : Int) (v : α)
    (h : (alLookup (alInsert m k v) id).isSome) :
    k = id ∨ (alLookup m id).isSome := by
  by_cases hk : k = id
  · exact Or.inl hk
  · right; rwa [alLookup_alInsert_ne m k id v hk] at h

theorem alLookup_append_singleton_isSome {α : Type} (l : List (Int × α)) (k id : Int)
    (v : α) (h : (alLookup (l ++ [(k, v)]) id).isSome) :
    (alLookup l id).isSome ∨ k = id := by
  rw [alLookup_append] at h
  cases hl : alLookup l id with
  | some w => exact Or.inl (by simp [hl])
  | none =>
      rw [hl] at h
      by_cases hk : k = id
      · exact Or.inr hk
      · simp [alLookup, hk] at h

/-! ## Claim C1: the digest function -/

section
set_option maxRecDepth 1000000

/-- C1: `hasher.Compute` returns the standard base64 encoding, with
padding, of the 512-bit SHA-512 hash of the payload's raw bytes; being a
pure function of its input it is deterministic, and on `"angryMonkey"` it
returns exactly the documented literal. -/
theorem compute_sha512_base64_digest :
    (∀ p : String, Compute p = String.mk (base64Encode (sha512 (strBytes p)))) ∧
    Compute "angryMonkey" =
      "ZEHhWB65gUlzdVwtDQArEyx+KVLzp/aTaRaPlBzYRIFj6vjFdqEb0Q5B8zVKCZ0vKbZPZklJz0Fd7su2A+gf7Q==" :=
  ⟨fun _ => rfl, by decide⟩

end

/-! ## Claim C4: retrieval of an absent handle -/

/-- C4: `GetAndRemoveHash` on a handle with no entry in the map — never
allocated, still pending, or already consumed alike — returns the
not-found error and leaves the whole hasher state (map and stats)
unchanged; the outcome is a function of the absence alone, so the three
absent cases are indistinguishable to the caller. -/
theorem retrieve_absent_no_effect (h : AsyncHasherMutex) (id : Int)
    (habs : alLookup h.hashes id = none) :
    h.GetAndRemoveHash id = (none, h) := by
  unfold AsyncHasherMutex.GetAndRemoveHash
  rw [habs]

theorem retrieve_absent_no_effect_witness :
    alLookup (NewHasherMutex).hashes 7 = none ∧
    NewHasherMutex.GetAndRemoveHash 7 = (none, NewHasherMutex) :=
  ⟨rfl, retrieve_absent_no_effect NewHasherMutex 7 rfl⟩


theorem stepM_hashes_none (s s' : MState) (e : Ev) (o : Obs) (id : Int)
    (hstep : stepM s e = some (s', o))
    (hne : e ≠ .putDone id)
    (hn : alLookup s.hasher.hashes id = none) :
    alLookup s'.hasher.hashes id = none := by
  cases e with
  | submit p =>
      simp [stepM] at hstep
      obtain ⟨hs, ho⟩ := hstep
      subst hs
      exact hn
  | statsDone id2 el =>
      cases hl : alLookup s.sleeping id2 with
      | none => simp [stepM, hl] at hstep
      | some p =>
          simp [stepM, hl] at hstep
          obtain ⟨hs, ho⟩ := hstep
          subst hs
          exact hn
  | putDone id2 =>
      have hne2 : id2 ≠ id := fun hh => hne (by rw [hh])
      cases hl : alLookup s.publishing id2 with
      | none => simp [stepM, hl] at hstep
      | some p =>
          simp [stepM, hl] at hstep
          obtain ⟨hs, ho⟩ := hstep
          subst hs
          simp [AsyncHasherMutex.putStep, alLookup_alInsert_ne _ _ _ _ hne2, hn]
  | getAndRemove id2 =>
      cases hl : alLookup s.hasher.hashes id2 with
      | none =>
          simp [stepM, AsyncHasherMutex.GetAndRemoveHash, hl] at hstep
          obtain ⟨hs, ho⟩ := hstep
          subst hs
          exact hn
      | some v =>
          simp [stepM, AsyncHasherMutex.GetAndRemoveHash, hl] at hstep
          obtain ⟨hs, ho⟩ := hstep
          subst hs
          exact alLookup_alErase_none _ _ _ hn
  | readStats =>
      simp [stepM] at hstep
      obtain ⟨hs, ho⟩ := hstep
      subst hs
      exact hn
  | drainReturn =>
      by_cases hc : s.sleeping = [] ∧ s.publishing = []
      · simp [stepM, hc] at hstep
        obtain ⟨hs, ho⟩ := hstep
        subst hs
        exact hn
      · simp [stepM, hc] at hstep


theorem runM_cons (s : MState) (e : Ev) (es : List Ev) :
    runM s (e :: es) =
      match stepM s e with
      | none => none
      | some (s1, o) =>
          match runM s1 es with
          | none => none
          | some (s2, os) => some (s2, o :: os) := rfl

theorem runM_hashes_none_preserved (evs : List Ev) :
    ∀ (s0 s1 : MState) (os : List Obs) (id : Int),
      runM s0 evs = some (s1, os) →
      alLookup s0.hasher.hashes id = none →
      Ev.putDone id ∉ evs →
      alLookup s1.hasher.hashes id = none := by
  induction evs with
  | nil =>
      intro s0 s1 os id hrun hn _
      simp [runM] at hrun
      obtain ⟨hs, _⟩ := hrun
      subst hs
      exact hn
  | cons e es ih =>
      intro s0 s1 os id hrun hn hmem
      rw [runM_cons] at hrun
      cases hstep : stepM s0 e with
      | none => rw [hstep] at hrun; simp at hrun
      | some so =>
          obtain ⟨s2, o⟩ := so
          rw [hstep] at hrun
          dsimp only at hrun
          cases hrest : runM s2 es with
          | none => rw [hrest] at hrun; simp at hrun
          | some r =>
              obtain ⟨s3, os2⟩ := r
              rw [hrest] at hrun
              simp at hrun
              obtain ⟨hs, _⟩ := hrun
              subst hs
              have hne : e ≠ Ev.putDone id := fun hh => hmem (hh ▸ List.mem_cons_self e es)
              have h2 : alLookup s2.hasher.hashes id = none :=
                stepM_hashes_none s0 s2 e o id hstep hne hn
              exact ih s2 _ os2 id hrest h2 (fun hm => hmem (List.mem_cons_of_mem e hm))


/-- C2: consume-once retrieval.  (1) When a background unit's final
publication step runs, the store gains an entry mapping the unit's handle
to the digest of its submitted payload.  (2) On a state whose store holds
an entry for the handle, `GetAndRemoveHash` returns it (`found = true`)
and removes it in the same atomic operation, so an immediately repeated
call returns not-found and changes nothing.  (3) Once absent, the entry
stays absent along any continuation that contains no further publication
for that handle, so every subsequent retrieval returns not-found. -/
theorem retrieve_consume_once :
    (∀ (st : MState) (id : Int) (p : String) (s2 : MState) (o : Obs),
        alLookup st.publishing id = some p →
        stepM st (.putDone id) = some (s2, o) →
        alLookup s2.hasher.hashes id = some (Compute p)) ∧
    (∀ (h : AsyncHasherMutex) (id : Int) (v : String),
        alLookup h.hashes id = some v →
        (h.GetAndRemoveHash id).1 = some v ∧
        alLookup (h.GetAndRemoveHash id).2.hashes id = none ∧
        (h.GetAndRemoveHash id).2.GetAndRemoveHash id =
          (none, (h.GetAndRemoveHash id).2)) ∧
    (∀ (s0 : MState) (evs : List Ev) (s1 : MState) (os : List Obs) (id : Int),
        runM s0 evs = some (s1, os) →
        alLookup s0.hasher.hashes id = none →
        Ev.putDone id ∉ evs →
        alLookup s1.hasher.hashes id = none) := by
  refine ⟨?_, ?_, ?_⟩
  · intro st id p s2 o hpub hstep
    simp [stepM, hpub] at hstep
    obtain ⟨hs, _⟩ := hstep
    subst hs
    exact alLookup_alInsert_self _ _ _
  · intro h id v hv
    unfold AsyncHasherMutex.GetAndRemoveHash
    rw [hv]
    refine ⟨rfl, alLookup_alErase_self _ _, ?_⟩
    simp [alLookup_alErase_self]
  · intro s0 evs s1 os id hrun hn hmem
    exact runM_hashes_none_preserved evs s0 s1 os id hrun hn hmem

theorem retrieve_consume_once_witness :
    alLookup ([((3 : Int), "d")]) 3 = some "d" ∧
    ((⟨0, [(3, "d")], statsInit⟩ : AsyncHasherMutex).GetAndRemoveHash 3).1 = some "d" ∧
    alLookup (⟨⟨1, [], statsInit⟩, [(1, "x")], []⟩ : MState).hasher.hashes 9 = none :=
  ⟨rfl, (retrieve_consume_once.2.1 ⟨0, [(3, "d")], statsInit⟩ 3 "d" rfl).1,
    retrieve_consume_once.2.2 initM [Ev.submit "x", Ev.getAndRemove 9]
      ⟨⟨1, [], statsInit⟩, [(1, "x")], []⟩ [Obs.id 1, Obs.retrieved none] 9
      rfl rfl (by decide)⟩


/-- Per-step characterization of stats mutation: any step other than a
background unit's stats-update leaves the stats record untouched. -/
theorem stepM_stats_frame (s s2 : MState) (e : Ev) (o : Obs)
    (hstep : stepM s e = some (s2, o)) (hne : ∀ id elapsed, e ≠ .statsDone id elapsed) :
    s2.hasher.stats = s.hasher.stats := by
  cases e with
  | submit p =>
      simp [stepM] at hstep
      obtain ⟨hs, _⟩ := hstep
      subst hs
      rfl
  | statsDone id2 el => exact absurd rfl (hne id2 el)
  | putDone id2 =>
      cases hl : alLookup s.publishing id2 with
      | none => simp [stepM, hl] at hstep
      | some p =>
          simp [stepM, hl] at hstep
          obtain ⟨hs, _⟩ := hstep
          subst hs
          rfl
  | getAndRemove id2 =>
      cases hl : alLookup s.hasher.hashes id2 with
      | none =>
          simp [stepM, AsyncHasherMutex.GetAndRemoveHash, hl] at hstep
          obtain ⟨hs, _⟩ := hstep
          subst hs
          rfl
      | some v =>
          simp [stepM, AsyncHasherMutex.GetAndRemoveHash, hl] at hstep
          obtain ⟨hs, _⟩ := hstep
          subst hs
          rfl
  | readStats =>
      simp [stepM] at hstep
      obtain ⟨hs, _⟩ := hstep
      subst hs
      rfl
  | drainReturn =>
      by_cases hc : s.sleeping = [] ∧ s.publishing = []
      · simp [stepM, hc] at hstep
        obtain ⟨hs, _⟩ := hstep
        subst hs
        rfl
      · simp [stepM, hc] at hstep

/-- Per-step characterization of stats mutation in the channel machine:
any action other than the event loop's processing of a `statUpdateChan`
message leaves the loop-owned stats untouched. -/
theorem stepCF_stats_frame (c c2 : CFState) (e : CEv) (o : Obs)
    (hstep : stepCF c e = some (c2, o)) (hne : e ≠ CEv.procStats) :
    c2.loop.stats = c.loop.stats := by
  cases e with
  | submit p =>
      simp [stepCF] at hstep
      obtain ⟨hs, _⟩ := hstep
      subst hs
      rfl
  | sendStats id el =>
      cases hl : alLookup c.sleeping id with
      | none => simp [stepCF, hl] at hstep
      | some p =>
          simp [stepCF, hl] at hstep
          obtain ⟨hs, _⟩ := hstep
          subst hs
          rfl
  | sendPut id =>
      cases hl : alLookup c.sentStats id with
      | none => simp [stepCF, hl] at hstep
      | some p =>
          simp [stepCF, hl] at hstep
          obtain ⟨hs, _⟩ := hstep
          subst hs
          rfl
  | procStats => exact absurd rfl hne
  | procPut =>
      by_cases ha : c.loopAlive = true
      · cases hq : c.putQueue with
        | nil => simp [stepCF, ha, hq] at hstep
        | cons kv rest =>
            obtain ⟨id, hash⟩ := kv
            simp [stepCF, ha, hq] at hstep
            obtain ⟨hs, _⟩ := hstep
            subst hs
            rfl
      · simp [stepCF, ha] at hstep
  | getAndRemove id =>
      by_cases ha : c.loopAlive = true
      · cases hl : alLookup c.loop.hashes id with
        | none =>
            simp [stepCF, ha, eventLoopStep, hl] at hstep
            obtain ⟨hs, _⟩ := hstep
            subst hs
            rfl
        | some v =>
            simp [stepCF, ha, eventLoopStep, hl] at hstep
            obtain ⟨hs, _⟩ := hstep
            subst hs
            rfl
      · simp [stepCF, ha] at hstep
  | readStats =>
      by_cases ha : c.loopAlive = true
      · simp [stepCF, ha] at hstep
        obtain ⟨hs, _⟩ := hstep
        subst hs
        rfl
      · simp [stepCF, ha] at hstep
  | shutdownProc =>
      by_cases ha : c.loopAlive = true
      · simp [stepCF, ha] at hstep
        obtain ⟨hs, _⟩ := hstep
        subst hs
        rfl
      · simp [stepCF, ha] at hstep
  | drainReturn =>
      by_cases hc : c.loopAlive = false ∧ c.sleeping = [] ∧ c.sentStats = []
      · simp [stepCF, hc] at hstep
        obtain ⟨hs, _⟩ := hstep
        subst hs
        rfl
      · simp [stepCF, hc] at hstep

/-- C8: the stats state is mutated only by a background unit's completion
step: in the mutex variant only the `statsDone` critical section
(`stats.update` under `statsMutex`) changes the stats, and in the
channel variant only the event loop's processing of a completion's
`statUpdateChan` message does.  The synchronous part of `Compute` and
every `GetAndRemoveHash` call, found or not-found, leave the stats
unchanged in both variants. -/
theorem stats_mutation_only_completion :
    (∀ (s s2 : MState) (e : Ev) (o : Obs),
        stepM s e = some (s2, o) →
        s2.hasher.stats ≠ s.hasher.stats →
        ∃ id elapsed, e = Ev.statsDone id elapsed) ∧
    (∀ (s : MState) (p : String) (r : MState × Obs),
        stepM s (.submit p) = some r → r.1.hasher.stats = s.hasher.stats) ∧
    (∀ (s : MState) (id : Int) (r : MState × Obs),
        stepM s (.getAndRemove id) = some r → r.1.hasher.stats = s.hasher.stats) ∧
    (∀ (c c2 : CFState) (e : CEv) (o : Obs),
        stepCF c e = some (c2, o) →
        c2.loop.stats ≠ c.loop.stats → e = CEv.procStats) ∧
    (∀ (c : CFState) (p : String) (r : CFState × Obs),
        stepCF c (.submit p) = some r → r.1.loop.stats = c.loop.stats) ∧
    (∀ (c : CFState) (id : Int) (r : CFState × Obs),
        stepCF c (.getAndRemove id) = some r → r.1.loop.stats = c.loop.stats) := by
  refine ⟨?_, ?_, ?_, ?_, ?_, ?_⟩
  · intro s s2 e o hstep hne
    by_cases he : ∃ id elapsed, e = Ev.statsDone id elapsed
    · exact he
    · push_neg at he
      exact absurd (stepM_stats_frame s s2 e o hstep (fun id el hh => he id el hh)) hne
  · intro s p r hstep
    exact stepM_stats_frame s r.1 (.submit p) r.2 (by rw [← hstep]) (fun _ _ => by simp)
  · intro s id r hstep
    exact stepM_stats_frame s r.1 (.getAndRemove id) r.2 (by rw [← hstep]) (fun _ _ => by simp)
  · intro c c2 e o hstep hne
    by_cases he : e = CEv.procStats
    · exact he
    · exact absurd (stepCF_stats_frame c c2 e o hstep he) hne
  · intro c p r hstep
    exact stepCF_stats_frame c r.1 (.submit p) r.2 (by rw [← hstep]) (by simp)
  · intro c id r hstep
    exact stepCF_stats_frame c r.1 (.getAndRemove id) r.2 (by rw [← hstep]) (by simp)

theorem stats_mutation_only_completion_witness :
    stepM initM (Ev.getAndRemove 4) = some (initM, Obs.retrieved none) ∧
    (initM, Obs.retrieved none).1.hasher.stats = initM.hasher.stats ∧
    (initCF, Obs.retrieved none).1.loop.stats = initCF.loop.stats :=
  ⟨rfl,
    stats_mutation_only_completion.2.2.1 initM 4 (initM, Obs.retrieved none) rfl,
    stats_mutation_only_completion.2.2.2.2.2 initCF 4 (initCF, Obs.retrieved none) rfl⟩


/-- Along any run from a quiescent state (no outstanding background
units) that admits no new submissions, no completion step can fire: the
stats are untouched and the store gains no entries. -/
theorem runM_quiescent (evs : List Ev) :
    ∀ (s0 s1 : MState) (os : List Obs),
      s0.sleeping = [] → s0.publishing = [] →
      (∀ p, Ev.submit p ∉ evs) →
      runM s0 evs = some (s1, os) →
      s1.hasher.stats = s0.hasher.stats ∧
      (∀ id elapsed, Ev.statsDone id elapsed ∉ evs) ∧
      (∀ id, Ev.putDone id ∉ evs) ∧
      (∀ id v, alLookup s1.hasher.hashes id = some v →
        alLookup s0.hasher.hashes id = some v) := by
  induction evs with
  | nil =>
      intro s0 s1 os _ _ _ hrun
      simp [runM] at hrun
      obtain ⟨hs, _⟩ := hrun
      subst hs
      exact ⟨rfl, by simp, by simp, fun id v hv => hv⟩
  | cons e es ih =>
      intro s0 s1 os hsl hpb hsub hrun
      rw [runM_cons] at hrun
      cases e with
      | submit p => exact absurd (List.mem_cons_self _ _) (hsub p)
      | statsDone id el => simp [stepM, hsl, alLookup] at hrun
      | putDone id => simp [stepM, hpb, alLookup] at hrun
      | getAndRemove id =>
          have hsub2 : ∀ p, Ev.submit p ∉ es :=
            fun p hm => hsub p (List.mem_cons_of_mem _ hm)
          cases hl : alLookup s0.hasher.hashes id with
          | none =>
              rw [show stepM s0 (.getAndRemove id) = some (s0, .retrieved none) by
                    simp [stepM, AsyncHasherMutex.GetAndRemoveHash, hl]] at hrun
              dsimp only at hrun
              cases hrest : runM s0 es with
              | none => rw [hrest] at hrun; simp at hrun
              | some r =>
                  obtain ⟨s3, os2⟩ := r
                  rw [hrest] at hrun
                  simp at hrun
                  obtain ⟨hs, _⟩ := hrun
                  subst hs
                  obtain ⟨h1, h2, h3, h4⟩ := ih s0 _ os2 hsl hpb hsub2 hrest
                  refine ⟨h1, ?_, ?_, h4⟩
                  · intro id2 el hm
                    rcases List.mem_cons.mp hm with hh | hh
                    · exact absurd hh (by simp)
                    · exact h2 id2 el hh
                  · intro id2 hm
                    rcases List.mem_cons.mp hm with hh | hh
                    · exact absurd hh (by simp)
                    · exact h3 id2 hh
          | some v =>
              rw [show stepM s0 (.getAndRemove id) =
                    some (⟨{ s0.hasher with hashes := alErase s0.hasher.hashes id },
                           s0.sleeping, s0.publishing⟩, .retrieved (some v)) by
                    simp [stepM, AsyncHasherMutex.GetAndRemoveHash, hl]] at hrun
              dsimp only at hrun
              cases hrest : runM ⟨{ s0.hasher with hashes := alErase s0.hasher.hashes id },
                  s0.sleeping, s0.publishing⟩ es with
              | none => rw [hrest] at hrun; simp at hrun
              | some r =>
                  obtain ⟨s3, os2⟩ := r
                  rw [hrest] at hrun
                  simp at hrun
                  obtain ⟨hs, _⟩ := hrun
                  subst hs
                  obtain ⟨h1, h2, h3, h4⟩ :=
                    ih ⟨{ s0.hasher with hashes := alErase s0.hasher.hashes id },
                        s0.sleeping, s0.publishing⟩ _ os2 hsl hpb hsub2 hrest
                  refine ⟨h1, ?_, ?_, ?_⟩
                  · intro id2 el hm
                    rcases List.mem_cons.mp hm with hh | hh
                    · exact absurd hh (by simp)
                    · exact h2 id2 el hh
                  · intro id2 hm
                    rcases List.mem_cons.mp hm with hh | hh
                    · exact absurd hh (by simp)
                    · exact h3 id2 hh
                  · intro id2 v2 hv
                    exact alLookup_alErase_some _ _ _ _ (h4 id2 v2 hv)
      | readStats =>
          have hsub2 : ∀ p, Ev.submit p ∉ es :=
            fun p hm => hsub p (List.mem_cons_of_mem _ hm)
          rw [show stepM s0 .readStats = some (s0, .stats s0.hasher.statsRead) from rfl] at hrun
          dsimp only at hrun
          cases hrest : runM s0 es with
          | none => rw [hrest] at hrun; simp at hrun
          | some r =>
              obtain ⟨s3, os2⟩ := r
              rw [hrest] at hrun
              simp at hrun
              obtain ⟨hs, _⟩ := hrun
              subst hs
              obtain ⟨h1, h2, h3, h4⟩ := ih s0 _ os2 hsl hpb hsub2 hrest
              refine ⟨h1, ?_, ?_, h4⟩
              · intro id2 el hm
                rcases List.mem_cons.mp hm with hh | hh
                · exact absurd hh (by simp)
                · exact h2 id2 el hh
              · intro id2 hm
                rcases List.mem_cons.mp hm with hh | hh
                · exact absurd hh (by simp)
                · exact h3 id2 hh
      | drainReturn =>
          have hsub2 : ∀ p, Ev.submit p ∉ es :=
            fun p hm => hsub p (List.mem_cons_of_mem _ hm)
          rw [show stepM s0 .drainReturn = some (s0, .unit) by
                simp [stepM, hsl, hpb]] at hrun
          dsimp only at hrun
          cases hrest : runM s0 es with
          | none => rw [hrest] at hrun; simp at hrun
          | some r =>
              obtain ⟨s3, os2⟩ := r
              rw [hrest] at hrun
              simp at hrun
              obtain ⟨hs, _⟩ := hrun
              subst hs
              obtain ⟨h1, h2, h3, h4⟩ := ih s0 _ os2 hsl hpb hsub2 hrest
              refine ⟨h1, ?_, ?_, h4⟩
              · intro id2 el hm
                rcases List.mem_cons.mp hm with hh | hh
                · exact absurd hh (by simp)
                · exact h2 id2 el hh
              · intro id2 hm
                rcases List.mem_cons.mp hm with hh | hh
                · exact absurd hh (by simp)
                · exact h3 id2 hh


/-- C6: `Drain` (`wg.Wait`) can return only when no submitted job's
background unit is still outstanding (both phase lists empty), and from
that point, as long as the boundary admits no new submissions, no
completion step of any prior submission can occur: the stats are
unchanged and the result store gains no entry (it can only shrink through
explicit retrievals). -/
theorem drain_quiescence :
    (∀ (s s2 : MState) (o : Obs),
        stepM s .drainReturn = some (s2, o) →
        s.sleeping = [] ∧ s.publishing = [] ∧ s2 = s) ∧
    (∀ (s0 : MState) (evs : List Ev) (s1 : MState) (os : List Obs),
        s0.sleeping = [] → s0.publishing = [] →
        (∀ p, Ev.submit p ∉ evs) →
        runM s0 evs = some (s1, os) →
        s1.hasher.stats = s0.hasher.stats ∧
        (∀ id elapsed, Ev.statsDone id elapsed ∉ evs) ∧
        (∀ id, Ev.putDone id ∉ evs) ∧
        (∀ id v, alLookup s1.hasher.hashes id = some v →
          alLookup s0.hasher.hashes id = some v)) := by
  constructor
  · intro s s2 o hstep
    by_cases hc : s.sleeping = [] ∧ s.publishing = []
    · simp [stepM, hc] at hstep
      obtain ⟨hs, _⟩ := hstep
      subst hs
      exact ⟨hc.1, hc.2, rfl⟩
    · simp [stepM, hc] at hstep
  · intro s0 evs s1 os hsl hpb hsub hrun
    exact runM_quiescent evs s0 s1 os hsl hpb hsub hrun

theorem drain_quiescence_witness :
    initM.sleeping = [] ∧ initM.publishing = [] ∧
    (∀ p, Ev.submit p ∉ [Ev.getAndRemove 1, Ev.readStats]) ∧
    initM.hasher.stats = initM.hasher.stats ∧
    (∀ id, Ev.putDone id ∉ [Ev.getAndRemove 1, Ev.readStats]) :=
  ⟨rfl, rfl, by intro p; simp,
    (drain_quiescence.2 initM [Ev.getAndRemove 1, Ev.readStats] initM
      [Obs.retrieved none, Obs.stats statsInit] rfl rfl (by intro p; simp) rfl).1,
    (drain_quiescence.2 initM [Ev.getAndRemove 1, Ev.readStats] initM
      [Obs.retrieved none, Obs.stats statsInit] rfl rfl (by intro p; simp) rfl).2.2.1⟩


theorem alLookup_alErase_isSome {α : Type} (m : List (Int × α)) (k id : Int)
    (h : (alLookup (alErase m k) id).isSome) : (alLookup m id).isSome := by
  cases hm : alLookup m id with
  | some v => simp
  | none => rw [alLookup_alErase_none m k id hm] at h; simp at h

/-- Provenance of result-store entries: an entry present after a run was
either present at the start, or its job was already in the publishing
phase, or the run itself contains the job's stats-publication step.  In
particular the map insert can never precede the stats update. -/
theorem runM_entry_origin (evs : List Ev) :
    ∀ (s0 s1 : MState) (os : List Obs) (id : Int),
      runM s0 evs = some (s1, os) →
      (alLookup s1.hasher.hashes id).isSome →
      (alLookup s0.hasher.hashes id).isSome ∨ (alLookup s0.publishing id).isSome ∨
        ∃ elapsed, Ev.statsDone id elapsed ∈ evs := by
  induction evs with
  | nil =>
      intro s0 s1 os id hrun hsome
      simp [runM] at hrun
      obtain ⟨hs, _⟩ := hrun
      subst hs
      exact Or.inl hsome
  | cons e es ih =>
      intro s0 s1 os id hrun hsome
      rw [runM_cons] at hrun
      cases hstep : stepM s0 e with
      | none => rw [hstep] at hrun; simp at hrun
      | some so =>
          obtain ⟨s2, o⟩ := so
          rw [hstep] at hrun
          dsimp only at hrun
          cases hrest : runM s2 es with
          | none => rw [hrest] at hrun; simp at hrun
          | some r =>
              obtain ⟨s3, os2⟩ := r
              rw [hrest] at hrun
              simp at hrun
              obtain ⟨hs, _⟩ := hrun
              subst hs
              have hmid := ih s2 _ os2 id hrest hsome
              have lift : (∃ elapsed, Ev.statsDone id elapsed ∈ es) →
                  ∃ elapsed, Ev.statsDone id elapsed ∈ e :: es :=
                fun ⟨el, hm⟩ => ⟨el, List.mem_cons_of_mem e hm⟩
              cases e with
              | submit p =>
                  simp [stepM] at hstep
                  obtain ⟨h2, _⟩ := hstep
                  subst h2
                  rcases hmid with h | h | h
                  · exact Or.inl h
                  · exact Or.inr (Or.inl h)
                  · exact Or.inr (Or.inr (lift h))
              | statsDone id2 el2 =>
                  cases hl : alLookup s0.sleeping id2 with
                  | none => simp [stepM, hl] at hstep
                  | some p =>
                      simp [stepM, hl] at hstep
                      obtain ⟨h2, _⟩ := hstep
                      subst h2
                      rcases hmid with h | h | h
                      · exact Or.inl h
                      · rcases alLookup_append_singleton_isSome _ _ _ _ h with hh | hh
                        · exact Or.inr (Or.inl hh)
                        · exact Or.inr (Or.inr ⟨el2, hh ▸ List.mem_cons_self _ _⟩)
                      · exact Or.inr (Or.inr (lift h))
              | putDone id2 =>
                  cases hl : alLookup s0.publishing id2 with
                  | none => simp [stepM, hl] at hstep
                  | some p =>
                      simp [stepM, hl] at hstep
                      obtain ⟨h2, _⟩ := hstep
                      subst h2
                      rcases hmid with h | h | h
                      · rcases alLookup_alInsert_isSome _ _ _ _ h with hh | hh
                        · exact Or.inr (Or.inl (hh ▸ (by simp [hl])))
                        · exact Or.inl hh
                      · exact Or.inr (Or.inl (alLookup_alErase_isSome _ _ _ h))
                      · exact Or.inr (Or.inr (lift h))
              | getAndRemove id2 =>
                  cases hl : alLookup s0.hasher.hashes id2 with
                  | none =>
                      simp [stepM, AsyncHasherMutex.GetAndRemoveHash, hl] at hstep
                      obtain ⟨h2, _⟩ := hstep
                      subst h2
                      rcases hmid with h | h | h
                      · exact Or.inl h
                      · exact Or.inr (Or.inl h)
                      · exact Or.inr (Or.inr (lift h))
                  | some v =>
                      simp [stepM, AsyncHasherMutex.GetAndRemoveHash, hl] at hstep
                      obtain ⟨h2, _⟩ := hstep
                      subst h2
                      rcases hmid with h | h | h
                      · exact Or.inl (alLookup_alErase_isSome _ _ _ h)
                      · exact Or.inr (Or.inl h)
                      · exact Or.inr (Or.inr (lift h))
              | readStats =>
                  simp [stepM] at hstep
                  obtain ⟨h2, _⟩ := hstep
                  subst h2
                  rcases hmid with h | h | h
                  · exact Or.inl h
                  · exact Or.inr (Or.inl h)
                  · exact Or.inr (Or.inr (lift h))
              | drainReturn =>
                  by_cases hc : s0.sleeping = [] ∧ s0.publishing = []
                  · simp [stepM, hc] at hstep
                    obtain ⟨h2, _⟩ := hstep
                    subst h2
                    rcases hmid with h | h | h
                    · exact Or.inl h
                    · exact Or.inr (Or.inl h)
                    · exact Or.inr (Or.inr (lift h))
                  · simp [stepM, hc] at hstep

/-- C7 counterexample: the two publications of a completing background
unit are not one single visible update.  In the concrete interleaving
`submit "a"` followed by the unit's stats critical section only, an
observer already sees the unit's stats contribution (`Total = 1`) while
the result store still has no entry for its handle (`GetAndRemoveHash`
returns not-found): the stats contribution is visible without the
corresponding store entry. -/
theorem stats_store_not_atomic_cex :
    (runM initM [.submit "a", .statsDone 1 5]).map
        (fun r => ((r.1.hasher.statsRead).Total, (r.1.hasher.GetAndRemoveHash 1).1)) =
      some (1, none) := by decide

/-- C7 amended: when a background unit completes, it publishes the
duration to the Stats Aggregator and the result to the Result Store as
two separate visible updates, not a single one.  In the mutex variant
the stats update strictly precedes the store insert: an observer can see
the stats contribution without the store entry (the counterexample
above), but never a store entry for a handle whose stats publication has
not already happened.  In the channel variant the two publications are
two buffered messages the event loop may process in either order, so
there the store entry can also become visible before the stats
contribution, as the second conjunct's concrete schedule shows
(`procPut` taken while the `statUpdateChan` message is still queued:
the entry is retrievable and the stats count is still zero). -/
theorem completion_two_separate_updates :
    (∀ (evs : List Ev) (s1 : MState) (os : List Obs) (id : Int),
        runM initM evs = some (s1, os) →
        (alLookup s1.hasher.hashes id).isSome →
        ∃ elapsed, Ev.statsDone id elapsed ∈ evs) ∧
    ((runCF initCF [.submit "x", .sendStats 1 0, .sendPut 1, .procPut]).map
        (fun r => ((alLookup r.1.loop.hashes 1).isSome, r.1.loop.stats.Total)) =
      some (true, 0)) := by
  constructor
  · intro evs s1 os id hrun hsome
    rcases runM_entry_origin evs initM s1 os id hrun hsome with h | h | h
    · simp [initM, NewHasherMutex, alLookup] at h
    · simp [initM, alLookup] at h
    · exact h
  · decide

theorem completion_two_separate_updates_witness :
    ∃ elapsed, Ev.statsDone 1 elapsed ∈ [Ev.submit "a", Ev.statsDone 1 0, Ev.putDone 1] :=
  completion_two_separate_updates.1 [Ev.submit "a", Ev.statsDone 1 0, Ev.putDone 1]
    ⟨⟨1, alInsert [] 1 (Compute "a"), Stats.update statsInit 0⟩, [], []⟩
    [Obs.id 1, Obs.unit, Obs.unit] 1 rfl rfl


theorem wrapI64_eq_self (z : Int) (h1 : -(2 ^ 63) ≤ z) (h2 : z < 2 ^ 63) :
    wrapI64 z = z := by
  unfold wrapI64
  have ha : (0 : Int) ≤ z + 9223372036854775808 := by linarith
  have hb : z + 9223372036854775808 < 18446744073709551616 := by linarith
  rw [Int.emod_eq_of_lt ha hb]
  ring

theorem submitIds_from_counter (n : Nat) :
    ∀ (c : Int) (hs : List (Int × String)) (st : Stats),
      0 ≤ c → c + n ≤ 2 ^ 63 - 1 →
      submitIds n ⟨c, hs, st⟩ = (List.range n).map (fun k : Nat => c + (k : Int) + 1) := by
  induction n with
  | zero => intro c hs st _ _; rfl
  | succ m ih =>
      intro c hs st h0 hbound
      have hwrap : wrapI64 (c + 1) = c + 1 := by
        apply wrapI64_eq_self
        · have : (0 : Int) ≤ 2 ^ 63 := by norm_num
          linarith
        · have : (0 : Int) ≤ (m : Int) := Int.natCast_nonneg m
          push_cast at hbound
          linarith
      rw [show submitIds (m + 1) ⟨c, hs, st⟩ =
            wrapI64 (c + 1) :: submitIds m ⟨wrapI64 (c + 1), hs, st⟩ from rfl]
      rw [hwrap]
      rw [ih (c + 1) hs st (by linarith) (by push_cast at hbound ⊢; linarith)]
      rw [List.range_succ_eq_map, List.map_cons, List.map_map]
      congr 1
      · push_cast
        ring
      · apply List.map_congr_left
        intro a _
        simp only [Function.comp_apply]
        push_cast
        ring


/-- C3: the handles handed out by successive `Compute` calls on a fresh
coordinator are `1, 2, 3, …`: the counter grows monotonically, the handle
sequence is strictly increasing with no repetition, and the first handle
is `1`.  (The counter is a Go `int64`; the hypothesis keeps the sequence
inside the representable range, below which `atomic.AddInt64` cannot
wrap.) -/
theorem handles_unique_increasing (n : Nat) (hn : (n : Int) ≤ 2 ^ 63 - 1) :
    submitIds n NewHasherMutex = (List.range n).map (fun k : Nat => (k : Int) + 1) ∧
    (submitIds n NewHasherMutex).Nodup ∧
    List.Pairwise (fun a b : Int => a < b) (submitIds n NewHasherMutex) ∧
    (0 < n → (submitIds n NewHasherMutex).headD 0 = 1) := by
  have heq : submitIds n NewHasherMutex =
      (List.range n).map (fun k : Nat => (k : Int) + 1) := by
    have h := submitIds_from_counter n 0 [] statsInit le_rfl (by simpa using hn)
    simpa using h
  have hpair : List.Pairwise (fun a b : Int => a < b) (submitIds n NewHasherMutex) := by
    rw [heq]
    refine List.pairwise_map.mpr ((List.pairwise_lt_range n).imp ?_)
    intro a b hab
    have : (a : Int) < (b : Int) := by exact_mod_cast hab
    linarith
  refine ⟨heq, hpair.imp (fun hab => ne_of_lt hab), hpair, ?_⟩
  intro hpos
  cases n with
  | zero => exact absurd hpos (by simp)
  | succ m => rw [heq, List.range_succ_eq_map]; simp

theorem handles_unique_increasing_witness :
    ((3 : Nat) : Int) ≤ 2 ^ 63 - 1 ∧ submitIds 3 NewHasherMutex = [1, 2, 3] :=
  ⟨by norm_num, by rw [(handles_unique_increasing 3 (by norm_num)).1]; decide⟩


theorem statsOfDurations_append (ds : List Nat) (d : Nat) :
    statsOfDurations (ds ++ [d]) = (statsOfDurations ds).update d := by
  simp [statsOfDurations, List.foldl_append]

theorem statsOfDurations_total_time (ds : List Nat)
    (hlen : ds.length < 2 ^ 64) (hsum : ds.sum < 2 ^ 63) :
    (statsOfDurations ds).Total = ds.length ∧
    (statsOfDurations ds).totalTime = (ds.sum : Int) := by
  induction ds using List.reverseRecOn with
  | nil => exact ⟨rfl, rfl⟩
  | append_singleton ds d ih =>
      have hlen1 : (ds ++ [d]).length = ds.length + 1 := by simp
      have hsum1 : (ds ++ [d]).sum = ds.sum + d := by simp
      have hlen2 : ds.length < 2 ^ 64 := by rw [hlen1] at hlen; omega
      have hsum2 : ds.sum < 2 ^ 63 := by rw [hsum1] at hsum; omega
      obtain ⟨ht, htt⟩ := ih hlen2 hsum2
      rw [statsOfDurations_append]
      unfold Stats.update
      constructor
      · simp only [ht, hlen1]
        rw [Nat.mod_eq_of_lt (by rw [hlen1] at hlen; omega)]
      · simp only [htt, hsum1]
        rw [wrapI64_eq_self]
        · push_cast
          ring
        · have : (0 : Int) ≤ (ds.sum : Int) + (d : Int) := by positivity
          have hp : (0 : Int) < 2 ^ 63 := by norm_num
          linarith
        · rw [hsum1] at hsum
          have : ((ds.sum + d : Nat) : Int) < ((2 ^ 63 : Nat) : Int) := by
            exact_mod_cast hsum
          push_cast at this ⊢
          linarith

theorem statsOfDurations_avg (ds : List Nat) :
    (statsOfDurations ds).Avg =
      ((statsOfDurations ds).totalTime : ℚ) / ((statsOfDurations ds).Total : ℚ) /
        1000000 := by
  induction ds using List.reverseRecOn with
  | nil => simp [statsOfDurations, statsInit]
  | append_singleton ds d _ => rw [statsOfDurations_append]; rfl


/-- C5: in every reachable stats state (the fold of `Stats.update` over
the durations of the completed jobs), the count equals the number of
updates applied and the stored average is exactly the cumulative duration
divided by the count, converted to milliseconds, recomputed on every
update; it is zero when the count is zero.  The accessor returns the
record as a whole, so a reader always sees the count together with the
average computed from that same count.  (Hypotheses keep the `uint64`
count and `int64` nanosecond accumulator inside their ranges.) -/
theorem stats_snapshot_invariant (ds : List Nat)
    (hlen : ds.length < 2 ^ 64) (hsum : ds.sum < 2 ^ 63) :
    (statsOfDurations ds).Total = ds.length ∧
    (statsOfDurations ds).totalTime = (ds.sum : Int) ∧
    (statsOfDurations ds).Avg =
      ((statsOfDurations ds).totalTime : ℚ) / ((statsOfDurations ds).Total : ℚ) /
        1000000 ∧
    (ds = [] → (statsOfDurations ds).Avg = 0) ∧
    (ds ≠ [] → (statsOfDurations ds).Avg = (ds.sum : ℚ) / (ds.length : ℚ) / 1000000) ∧
    (∀ h : AsyncHasherMutex, h.statsRead = h.stats) := by
  obtain ⟨ht, htt⟩ := statsOfDurations_total_time ds hlen hsum
  have havg := statsOfDurations_avg ds
  refine ⟨ht, htt, havg, ?_, ?_, fun h => rfl⟩
  · intro hnil
    subst hnil
    rfl
  · intro _
    rw [havg, ht, htt, Int.cast_natCast]

theorem stats_snapshot_invariant_witness :
    [2000000, 4000000].length < 2 ^ 64 ∧ ([2000000, 4000000] : List Nat).sum < 2 ^ 63 ∧
    (statsOfDurations [2000000, 4000000]).Total = 2 :=
  ⟨by norm_num, by norm_num,
    (stats_snapshot_invariant [2000000, 4000000] (by norm_num) (by norm_num)).1⟩


theorem digitsVal_append (ds : List Char) (c : Char) :
    digitsVal (ds ++ [c]) = 10 * digitsVal ds + (c.toNat - 48) := by
  simp [digitsVal, List.foldl_append]

theorem digitChar_spec (d : Nat) (hd : d < 10) :
    (Char.ofNat (48 + d)).toNat = 48 + d ∧ isDigitGo (Char.ofNat (48 + d)) = true := by
  interval_cases d <;> exact ⟨by decide, by decide⟩

theorem sign_not_digit (c : Char) (h : isDigitGo c = true) : c ≠ '-' ∧ c ≠ '+' := by
  constructor <;> intro he <;> subst he <;> exact absurd h (by decide)

theorem natToDigits_spec (fuel : Nat) :
    ∀ n : Nat, n < fuel →
      digitsVal (natToDigits fuel n) = n ∧
      (natToDigits fuel n).all isDigitGo = true ∧
      natToDigits fuel n ≠ [] := by
  induction fuel with
  | zero => intro n hn; omega
  | succ f ih =>
      intro n hn
      by_cases h10 : n < 10
      · rw [show natToDigits (f + 1) n = [Char.ofNat (48 + n)] by
              simp [natToDigits, h10]]
        obtain ⟨htn, hdg⟩ := digitChar_spec n h10
        refine ⟨?_, by simp [hdg], by simp⟩
        simp [digitsVal, htn]
      · rw [show natToDigits (f + 1) n =
              natToDigits f (n / 10) ++ [Char.ofNat (48 + n % 10)] by
              simp [natToDigits, h10]]
        have hdiv : n / 10 < f := by omega
        obtain ⟨hv, hall, hne⟩ := ih (n / 10) hdiv
        obtain ⟨htn, hdg⟩ := digitChar_spec (n % 10) (by omega)
        refine ⟨?_, ?_, by simp⟩
        · rw [digitsVal_append, hv, htn]
          omega
        · simp [List.all_append, hall, hdg]

theorem natDecimal_spec (n : Nat) :
    digitsVal (natDecimal n) = n ∧ (natDecimal n).all isDigitGo = true ∧
      natDecimal n ≠ [] :=
  natToDigits_spec (n + 1) n (Nat.lt_succ_self n)


theorem parseIntGo_digits (c : Char) (rest : List Char)
    (hall : (c :: rest).all isDigitGo = true)
    (hlt : digitsVal (c :: rest) < 2 ^ 63) :
    parseIntGo (c :: rest) = some ((digitsVal (c :: rest) : Nat) : Int) := by
  have hc : isDigitGo c = true := by
    have := List.all_eq_true.mp hall
    exact this c (List.mem_cons_self c rest)
  obtain ⟨h1, h2⟩ := sign_not_digit c hc
  have hcond : ¬(c = '-' ∨ c = '+') := by tauto
  have hlt2 : digitsVal (c :: rest) < 9223372036854775808 := by
    have hpow : (2 : Nat) ^ 63 = 9223372036854775808 := by norm_num
    rw [hpow] at hlt
    exact hlt
  simp [parseIntGo, hcond, hall, hlt2, h1, h2]

theorem parseIntGo_natDecimal (n : Nat) (h : n < 2 ^ 63) :
    parseIntGo (natDecimal n) = some ((n : Nat) : Int) := by
  obtain ⟨hv, hall, hne⟩ := natDecimal_spec n
  cases hd : natDecimal n with
  | nil => exact absurd hd hne
  | cons c rest =>
      rw [hd] at hv hall
      rw [parseIntGo_digits c rest hall (by rw [hv]; exact h), hv]

theorem parseIntGo_neg_natDecimal (n : Nat) (h : n ≤ 2 ^ 63) :
    parseIntGo ('-' :: natDecimal n) = some (-((n : Nat) : Int)) := by
  obtain ⟨hv, hall, hne⟩ := natDecimal_spec n
  have h2 : n ≤ 9223372036854775808 := by
    have hpow : (2 : Nat) ^ 63 = 9223372036854775808 := by norm_num
    rw [hpow] at h
    exact h
  simp [parseIntGo, hne, hall, hv, h2]

theorem trimPrefixL_append (p s : List Char) : trimPrefixL (p ++ s) p = s := by
  unfold trimPrefixL
  rw [if_pos (by rw [List.isPrefixOf_iff_prefix]; exact List.prefix_append p s)]
  exact List.drop_left p s

theorem trimPrefixL_not_pre (s p : List Char) (h : ¬ p.isPrefixOf s = true) :
    trimPrefixL s p = s := by
  unfold trimPrefixL
  rw [if_neg h]


/-- C10: for every int64 value `z` and every prefix `p`,
`parsePathParamInt(p ++ decimal(z), p)` returns `z` with no error; in
general the function is exactly `strconv.ParseInt` applied to the path
with the prefix stripped (or to the whole path unchanged when the prefix
does not match), so a path that does not start with the prefix still
parses successfully when the entire path is itself a decimal integer. -/
theorem parsePathParamInt_spec :
    (∀ (p : String) (z : Int), -(2 ^ 63) ≤ z → z < 2 ^ 63 →
        parsePathParamInt ⟨p.data ++ intDecimal z⟩ p = some z) ∧
    (∀ (path pfx : String),
        parsePathParamInt path pfx = parseIntGo (trimPrefixL path.data pfx.data)) ∧
    (∀ (path pfx : String), ¬ pfx.data.isPrefixOf path.data = true →
        parsePathParamInt path pfx = parseIntGo path.data) := by
  refine ⟨?_, fun path pfx => rfl, ?_⟩
  · intro p z h1 h2
    show parseIntGo (trimPrefixL (p.data ++ intDecimal z) p.data) = some z
    rw [trimPrefixL_append]
    by_cases hz : z < 0
    · rw [intDecimal, if_pos hz]
      have hn : z.natAbs ≤ 2 ^ 63 := by omega
      rw [parseIntGo_neg_natDecimal z.natAbs hn]
      congr 1
      omega
    · rw [intDecimal, if_neg hz]
      have hn : z.toNat < 2 ^ 63 := by omega
      rw [parseIntGo_natDecimal z.toNat hn]
      congr 1
      omega
  · intro path pfx h
    show parseIntGo (trimPrefixL path.data pfx.data) = parseIntGo path.data
    rw [trimPrefixL_not_pre path.data pfx.data h]

theorem parsePathParamInt_spec_witness :
    (-(2 ^ 63) ≤ (345 : Int)) ∧ ((345 : Int) < 2 ^ 63) ∧
    (⟨"/path/".data ++ intDecimal 345⟩ : String) = "/path/345" ∧
    parsePathParamInt ⟨"/path/".data ++ intDecimal 345⟩ "/path/" = some 345 :=
  ⟨by norm_num, by norm_num, by decide,
    parsePathParamInt_spec.1 "/path/" 345 (by norm_num) (by norm_num)⟩



theorem runCF_cons (c : CFState) (e : CEv) (es : List CEv) :
    runCF c (e :: es) =
      match stepCF c e with
      | none => none
      | some (c1, o) =>
          match runCF c1 es with
          | none => none
          | some (c2, os) => some (c2, o :: os) := rfl

theorem runCF_append_some (l1 : List CEv) :
    ∀ (c c1 : CFState) (os1 : List Obs) (l2 : List CEv),
      runCF c l1 = some (c1, os1) →
      runCF c (l1 ++ l2) =
        match runCF c1 l2 with
        | none => none
        | some (c2, os2) => some (c2, os1 ++ os2) := by
  induction l1 with
  | nil =>
      intro c c1 os1 l2 h
      simp [runCF] at h
      obtain ⟨hc, hos⟩ := h
      subst hc
      subst hos
      rw [List.nil_append]
      cases h2 : runCF c l2 with
      | none => rfl
      | some r => obtain ⟨c2, os⟩ := r; simp
  | cons e es ih =>
      intro c c1 os1 l2 h
      rw [runCF_cons] at h
      cases hstep : stepCF c e with
      | none => rw [hstep] at h; simp at h
      | some r =>
          obtain ⟨cm, o⟩ := r
          rw [hstep] at h
          dsimp only at h
          cases h1 : runCF cm es with
          | none => rw [h1] at h; simp at h
          | some r1 =>
              obtain ⟨cm2, os2⟩ := r1
              rw [h1] at h
              simp at h
              obtain ⟨hc, hos⟩ := h
              subst hc
              subst hos
              rw [List.cons_append, runCF_cons, hstep]
              dsimp only
              rw [ih cm cm2 os2 l2 h1]
              cases h2 : runCF cm2 l2 with
              | none => rfl
              | some r2 => obtain ⟨c3, os3⟩ := r2; rfl

theorem apiObs_append (l1 l2 : List Obs) :
    apiObs (l1 ++ l2) = apiObs l1 ++ apiObs l2 := by
  simp [apiObs]


/-- One mutex-machine step is realized by its translated channel-machine
events from any related state, preserving the relation and the API
observations: the event loop processes each publication message
immediately after it is sent, which is one of the schedules the
`select` admits. -/
theorem stepM_trEv_runCF (s : MState) (c : CFState) (e : Ev) (s2 : MState) (o : Obs)
    (hrel : relCF s c) (hnd : e ≠ Ev.drainReturn)
    (hstep : stepM s e = some (s2, o)) :
    ∃ c2 cos, runCF c (trEv e) = some (c2, cos) ∧ relCF s2 c2 ∧
      apiObs cos = apiObs [o] := by
  obtain ⟨hasher, sl, pb⟩ := s
  obtain ⟨a, hh, st⟩ := hasher
  obtain ⟨ca, csl, css, csq, cpq, cloop, calive⟩ := c
  obtain ⟨chm, cst⟩ := cloop
  simp only [relCF] at hrel
  obtain ⟨h1, h2, h3, h4, h5, h6, h7, h8⟩ := hrel
  subst h1
  subst h2
  subst h3
  subst h4
  subst h5
  subst h6
  subst h7
  subst h8
  cases e with
  | submit p =>
      simp [stepM] at hstep
      obtain ⟨hs2, ho⟩ := hstep
      subst hs2
      subst ho
      exact ⟨_, _, rfl, ⟨rfl, rfl, rfl, rfl, rfl, rfl, rfl, rfl⟩, rfl⟩
  | statsDone id el =>
      cases hl : alLookup csl id with
      | none => simp [stepM, hl] at hstep
      | some p =>
          simp [stepM, hl] at hstep
          obtain ⟨hs2, ho⟩ := hstep
          subst hs2
          subst ho
          refine ⟨⟨ca, alErase csl id, css ++ [(id, p)], [], [], ⟨chm, cst.update el⟩, true⟩,
                  [.unit, .unit], ?_, ⟨rfl, rfl, rfl, rfl, rfl, rfl, rfl, rfl⟩, rfl⟩
          simp [runCF, stepCF, hl, eventLoopStep]
  | putDone id =>
      cases hl : alLookup css id with
      | none => simp [stepM, hl] at hstep
      | some p =>
          simp [stepM, hl] at hstep
          obtain ⟨hs2, ho⟩ := hstep
          subst hs2
          subst ho
          refine ⟨⟨ca, csl, alErase css id, [], [], ⟨alInsert chm id (Compute p), cst⟩, true⟩,
                  [.unit, .unit], ?_, ⟨rfl, rfl, rfl, rfl, rfl, rfl, rfl, rfl⟩, rfl⟩
          simp [runCF, stepCF, hl, eventLoopStep]
  | getAndRemove id =>
      cases hl : alLookup chm id with
      | none =>
          simp [stepM, AsyncHasherMutex.GetAndRemoveHash, hl] at hstep
          obtain ⟨hs2, ho⟩ := hstep
          subst hs2
          subst ho
          refine ⟨⟨ca, csl, css, [], [], ⟨chm, cst⟩, true⟩, [.retrieved none],
                  ?_, ⟨rfl, rfl, rfl, rfl, rfl, rfl, rfl, rfl⟩, rfl⟩
          simp [runCF, stepCF, eventLoopStep, hl]
      | some v =>
          simp [stepM, AsyncHasherMutex.GetAndRemoveHash, hl] at hstep
          obtain ⟨hs2, ho⟩ := hstep
          subst hs2
          subst ho
          refine ⟨⟨ca, csl, css, [], [], ⟨alErase chm id, cst⟩, true⟩, [.retrieved (some v)],
                  ?_, ⟨rfl, rfl, rfl, rfl, rfl, rfl, rfl, rfl⟩, rfl⟩
          simp [runCF, stepCF, eventLoopStep, hl]
  | readStats =>
      simp [stepM] at hstep
      obtain ⟨hs2, ho⟩ := hstep
      subst hs2
      subst ho
      exact ⟨_, _, rfl, ⟨rfl, rfl, rfl, rfl, rfl, rfl, rfl, rfl⟩, rfl⟩
  | drainReturn => exact absurd rfl hnd


/-- Whole-run simulation: any successful mutex-machine run without a
drain is reproduced, API observation for API observation, by the channel
machine running the translated schedule. -/
theorem runM_trEvs_runCF (evs : List Ev) :
    ∀ (s : MState) (c : CFState) (s1 : MState) (os : List Obs),
      relCF s c → Ev.drainReturn ∉ evs →
      runM s evs = some (s1, os) →
      ∃ c1 cos, runCF c (trEvs evs) = some (c1, cos) ∧ relCF s1 c1 ∧
        apiObs cos = apiObs os := by
  induction evs with
  | nil =>
      intro s c s1 os hrel _ hrun
      simp [runM] at hrun
      obtain ⟨hs, ho⟩ := hrun
      subst hs
      subst ho
      exact ⟨c, [], rfl, hrel, rfl⟩
  | cons e es ih =>
      intro s c s1 os hrel hnd hrun
      rw [runM_cons] at hrun
      cases hstep : stepM s e with
      | none => rw [hstep] at hrun; simp at hrun
      | some so =>
          obtain ⟨s2, o⟩ := so
          rw [hstep] at hrun
          dsimp only at hrun
          cases hrest : runM s2 es with
          | none => rw [hrest] at hrun; simp at hrun
          | some r =>
              obtain ⟨s3, os2⟩ := r
              rw [hrest] at hrun
              simp at hrun
              obtain ⟨hs, ho⟩ := hrun
              subst hs
              subst ho
              have hne : e ≠ Ev.drainReturn :=
                fun hh => hnd (hh ▸ List.mem_cons_self e es)
              obtain ⟨c2, cos1, hc1, hrel2, hobs1⟩ :=
                stepM_trEv_runCF s c e s2 o hrel hne hstep
              obtain ⟨c3, cos2, hc2, hrel3, hobs2⟩ :=
                ih s2 c2 _ os2 hrel2 (fun hm => hnd (List.mem_cons_of_mem e hm)) hrest
              refine ⟨c3, cos1 ++ cos2, ?_, hrel3, ?_⟩
              · rw [show trEvs (e :: es) = trEv e ++ trEvs es from rfl,
                    runCF_append_some (trEv e) c c2 cos1 (trEvs es) hc1, hc2]
              · rw [apiObs_append, hobs1, hobs2,
                    show (o :: os2) = [o] ++ os2 from rfl, apiObs_append]


/-- C9 counterexample: the two variants are not observationally
equivalent.  For the concrete workload of one submission (handle 1,
payload "x", measured duration 0), its completion, one retrieval and one
stats read: under the channel discipline there is a schedule (the loop
processes the `hashPair` while the duration message is still queued)
whose observations contain a successful retrieval followed by a stats
read of `Total = 0`; under the mutex discipline no interleaving of the
same workload — `perms` enumerates all of them — produces that
observation pattern, because the stats critical section precedes the map
insert inside one goroutine. -/
theorem mutex_channel_not_equivalent_cex :
    ((runCF initCF [.submit "x", .sendStats 1 0, .sendPut 1, .procPut,
                    .getAndRemove 1, .readStats]).map
        (fun r => obsSuccessThenZero r.2) = some true) ∧
    ((perms [Ev.submit "x", Ev.statsDone 1 0, Ev.putDone 1, Ev.getAndRemove 1,
             Ev.readStats]).all
        (fun t =>
          match runM initM t with
          | none => true
          | some r => !obsSuccessThenZero r.2) = true) := by
  exact ⟨by decide, by decide⟩


/-- C9 amended: the two variants satisfy the same core contract but are
not fully observationally equivalent; what holds is one direction of the
containment.  The channel variant simulates the mutex variant: every
successful pre-shutdown mutex-machine run is reproduced by the channel
machine under the schedule that processes each publication message
immediately, with exactly the same API observations — the same handles,
the same retrieval outcomes and the same stats.  The converse containment
fails: the channel variant's buffered publications admit reorderings
(see the counterexample) that the mutex discipline forbids. -/
theorem channel_simulates_mutex (evs : List Ev) (s1 : MState) (os : List Obs)
    (hnd : Ev.drainReturn ∉ evs) (hrun : runM initM evs = some (s1, os)) :
    ∃ c1 cos, runCF initCF (trEvs evs) = some (c1, cos) ∧
      apiObs cos = apiObs os ∧ relCF s1 c1 := by
  obtain ⟨c1, cos, h1, h2, h3⟩ := runM_trEvs_runCF evs initM initCF s1 os
    ⟨rfl, rfl, rfl, rfl, rfl, rfl, rfl, rfl⟩ hnd hrun
  exact ⟨c1, cos, h1, h3, h2⟩

theorem channel_simulates_mutex_witness :
    Ev.drainReturn ∉ [Ev.submit "x", Ev.getAndRemove 9] ∧
    (∃ c1 cos,
      runCF initCF (trEvs [Ev.submit "x", Ev.getAndRemove 9]) = some (c1, cos) ∧
      apiObs cos = apiObs [Obs.id 1, Obs.retrieved none] ∧
      relCF ⟨⟨1, [], statsInit⟩, [(1, "x")], []⟩ c1) :=
  ⟨by simp,
    channel_simulates_mutex [Ev.submit "x", Ev.getAndRemove 9]
      ⟨⟨1, [], statsInit⟩, [(1, "x")], []⟩ [Obs.id 1, Obs.retrieved none]
      (by simp) rfl⟩

end HashServer
